import Mathlib

/-!
Verification of the dDNNF explanation engine (`xALogic.ipynb`).

The Python code represents a compiled decision circuit as two parallel
lists (`children`, `label`), with labels stored as strings
(`'T'`, `'F'`, `'A'`, `'O' + str(x)`, or the decimal string of a literal).
This file embeds the data model and every operation the claims mention,
keeping Python's string-level behaviour (first-character dispatch,
`int(...)` parsing, `str(...)` printing, `split(' ')`, `strip()`,
negative-index list access) explicit.  Fallible Python operations
(`IndexError`, `ValueError`, unbounded recursion) are modelled with
`Option`; recursive circuit traversals take explicit fuel.
-/

namespace XALogic

/-! ### Python string primitives -/

/-- `s[0]` on a Python string: first character, `IndexError` on empty. -/
def firstChar (s : String) : Option Char :=
  s.data.head?

/-- The decimal digit character for `k < 10` (clamped above). -/
def digitChar : Nat → Char
  | 0 => '0' | 1 => '1' | 2 => '2' | 3 => '3' | 4 => '4'
  | 5 => '5' | 6 => '6' | 7 => '7' | 8 => '8' | _ => '9'

/-- Numeric value of a digit character. -/
def digitVal (c : Char) : Nat :=
  c.toNat - '0'.toNat

/-- Most-significant-first decimal digits, with structural fuel (any
fuel above the argument is enough; see `natDigits_eq`). -/
def natDigitsAux : Nat → Nat → List Char
  | 0, _ => []
  | fuel + 1, n =>
    if n < 10 then [digitChar n]
    else natDigitsAux fuel (n / 10) ++ [digitChar (n % 10)]

/-- Most-significant-first decimal digits of a natural number. -/
def natDigits (n : Nat) : List Char :=
  natDigitsAux (n + 1) n

/-- Python `str` of an integer. -/
def intToStr (x : Int) : String :=
  if x < 0 then ⟨'-' :: natDigits x.natAbs⟩ else ⟨natDigits x.toNat⟩

/-- Value of a digit string (most significant first). -/
def digitsVal (cs : List Char) : Nat :=
  cs.foldl (fun a c => 10 * a + digitVal c) 0

/-- Whitespace `int` skips at both ends of its argument, by code
point: ASCII whitespace, next line, no-break space, and the Unicode
space characters (the C0 separators 28–31, although `str.isspace`,
are NOT skipped by `int`). -/
def intPad (c : Char) : Bool :=
  (9 ≤ c.toNat && c.toNat ≤ 13) || c.toNat = 32 ||
  c.toNat = 133 || c.toNat = 160 ||
  c.toNat = 0x1680 || (0x2000 ≤ c.toNat && c.toNat ≤ 0x200A) ||
  c.toNat = 0x2028 || c.toNat = 0x2029 || c.toNat = 0x202F ||
  c.toNat = 0x205F || c.toNat = 0x3000

/-- Drop trailing padding characters. -/
def dropTrailingPad (l : List Char) : List Char :=
  (l.reverse.dropWhile intPad).reverse

/-- Strip padding from both ends (what `int` does before parsing). -/
def stripPad (l : List Char) : List Char :=
  dropTrailingPad (l.dropWhile intPad)

/-- Continue a decimal digit run, with single underscores allowed
between digits (Python's digit grouping): an underscore must be
followed by a digit and must not end the run. -/
def intDigitsRest : Nat → List Char → Option Nat
  | acc, [] => some acc
  | acc, [c] => if c.isDigit then some (10 * acc + digitVal c) else none
  | acc, c :: c2 :: rest =>
    if c.isDigit then intDigitsRest (10 * acc + digitVal c) (c2 :: rest)
    else if c = '_' && c2.isDigit then
      intDigitsRest (10 * acc + digitVal c2) rest
    else none

/-- A nonempty underscore-grouped decimal digit run. -/
def intDigits : List Char → Option Nat
  | [] => none
  | c :: rest => if c.isDigit then intDigitsRest (digitVal c) rest else none

/-- The body of `int` once the padding is stripped: an optional sign
followed by a digit run. -/
def pyIntParse : List Char → Option Int
  | [] => none
  | c :: rest =>
    if c = '-' then (intDigits rest).map (fun n => -(n : Int))
    else if c = '+' then (intDigits rest).map (fun n => (n : Int))
    else (intDigits (c :: rest)).map (fun n => (n : Int))

/-- Python `int(s)` on character lists: whitespace padding stripped,
an optional `+`/`-` sign, then decimal digits with single underscores
allowed between digits; anything else raises `ValueError`, modelled
`none`.  Decimal digits beyond ASCII (Python also reads non-ASCII
Unicode digits) are outside this string model, so a theorem whose
content turns on `int` rejecting a token restricts that token to
ASCII. -/
def pyIntAux (l : List Char) : Option Int :=
  pyIntParse (stripPad l)

/-- Python `int(s)` (see `pyIntAux`). -/
def pyInt (s : String) : Option Int :=
  pyIntAux s.data

/-- Python list indexing `l[i]` with negative-index wraparound;
`none` models `IndexError`. -/
def pyIndex {α : Type} (l : List α) (i : Int) : Option α :=
  if 0 ≤ i then l.get? i.toNat
  else if i.natAbs ≤ l.length then l.get? (l.length - i.natAbs) else none

/-- The `dDNNF` class: parallel per-node `children` and `label` lists.
Labels are the exact Python strings: `"T"`, `"F"`, `"A"`, `"O" ++ x`
for an annotated disjunction, or the decimal string of a literal. -/
structure dDNNF where
  children : List (List Nat)
  label : List String
  deriving DecidableEq, Repr

/-! ### Circuit loader (`file_to_dDNNF`) -/

/-- Per-label negation, dispatching on the label's first character:
`'T'↔'F'`, `'A'↔'O'` (an `Or` annotation is dropped, an `And` gains
none), otherwise `str(-int(s))`. -/
def negLabel (s : String) : Option String := do
  let c ← firstChar s
  if c = 'T' then pure "F"
  else if c = 'F' then pure "T"
  else if c = 'A' then pure "O"
  else if c = 'O' then pure "A"
  else do
    let x ← pyInt s
    pure (intToStr (-x))

/-- `negate`: a fresh circuit of `len(label)` nodes with the same
children (copied per index, so shorter `children` raises) and negated
labels. -/
def negate (d : dDNNF) : Option dDNNF := do
  let v := d.label.length
  if d.children.length < v then none
  else do
    let labs ← d.label.mapM negLabel
    pure ⟨d.children.take v, labs⟩

/-! ### Condition -/

/-- Lookup in a Python `dict[int, bool]` built by successive insertions:
the last binding of a key wins. -/
def lookupA (a : List (Int × Bool)) (y : Int) : Option Bool :=
  (a.reverse.find? (fun kv => kv.1 == y)).map (fun kv => kv.2)

/-- Per-label conditioning: non-leaf labels (first char `O/A/T/F`) are
kept; a literal `x` whose variable `abs(x)` is assigned becomes `"T"`
when its sign agrees with the assigned value and `"F"` otherwise. -/
def condLabel (a : List (Int × Bool)) (s : String) : Option String := do
  let c ← firstChar s
  if c = 'O' || c = 'A' || c = 'T' || c = 'F' then pure s
  else do
    let x ← pyInt s
    match lookupA a (x.natAbs : Int) with
    | some b => pure (if (decide (0 < x) && b) || (decide (x < 0) && !b)
                      then "T" else "F")
    | none => pure s

/-- `condition`: fresh circuit, same children, literals rewritten by
the partial assignment `a`. -/
def condition (d : dDNNF) (a : List (Int × Bool)) : Option dDNNF := do
  let v := d.label.length
  if d.children.length < v then none
  else do
    let labs ← d.label.mapM (condLabel a)
    pure ⟨d.children.take v, labs⟩

/-! ### Filter (in-place procedure) -/

/-- Per-label filtering against instance `a` (a Python list of ints,
truthiness `≠ 0`): a literal `x` with `y = abs(x) - 1` becomes `"F"`
when `x > 0` and `a[y]` falsy, or `x < 0` and `a[y]` truthy.
`a[y]` uses Python indexing (negative wraps, out of range raises). -/
def filterLabel (a : List Int) (s : String) : Option String := do
  let c ← firstChar s
  if c = 'O' || c = 'A' || c = 'T' || c = 'F' then pure s
  else do
    let x ← pyInt s
    let t ← pyIndex a ((x.natAbs : Int) - 1)
    pure (if (decide (0 < x) && decide (t = 0)) ||
             (decide (x < 0) && decide (t ≠ 0))
          then "F" else s)

/-- `filter`: rewrites, in place, the labels of the first
`len(children)` nodes. -/
def filter (d : dDNNF) (a : List Int) : Option dDNNF := do
  let v := d.children.length
  let labs ← (List.range v).mapM (fun i => do
    let s ← d.label.get? i
    filterLabel a s)
  pure ⟨d.children, labs ++ d.label.drop v⟩

/-! ### Consensus (in-place procedure) -/

/-- `int(label[1])`: Python reads only the SECOND character of an `Or`
label, i.e. only the FIRST decimal digit of the decision-variable
annotation. -/
def secondCharInt (s : String) : Option Int := do
  let c ← s.data.get? 1
  if c.isDigit then pure ((digitVal c : Nat) : Int) else none

/-- The consensus list comprehension: keep `w` when `label[w]` is
neither `str(x)` nor `str(-x)` (string comparison). -/
def consFilter (st : dDNNF) (x : Int) : List Nat → Option (List Nat)
  | [] => pure []
  | w :: rest => do
    let lw ← st.label.get? w
    let tail ← consFilter st x rest
    pure (if lw ≠ intToStr x ∧ lw ≠ intToStr (-x) then w :: tail else tail)

/-- One iteration of the consensus loop at index `i`: on an `Or` node,
compute the consensus children from both branches, append them as a new
`And` node at the end of the table, and add its index as an extra child
of node `i`. -/
def consensusStep (st : dDNNF) (i : Nat) : Option dDNNF := do
  let lab ← st.label.get? i
  let c ← firstChar lab
  if c = 'O' then do
    let x ← secondCharInt lab
    let ch ← st.children.get? i
    let k ← ch.get? 0
    let j ← ch.get? 1
    let chk ← st.children.get? k
    let chj ← st.children.get? j
    let cons ← consFilter st x (chk ++ chj)
    let newIdx := st.label.length
    pure ⟨(st.children ++ [cons]).set i (ch ++ [newIdx]), st.label ++ ["A"]⟩
  else pure st

/-- `consensus`: scans exactly the original `len(label)` indices
(`v` is captured before the loop, so appended nodes are not scanned). -/
def consensus (d : dDNNF) : Option dDNNF :=
  (List.range d.label.length).foldlM consensusStep d

/-! ### Satisfiability evaluator -/

/-- The `boolean = boolean and is_satisfiable(...)` loop: Python `and`
short-circuits, so once `boolean` is false later children are not
evaluated. -/
def satFoldAnd (f : Nat → Option Bool) : List Nat → Bool → Option Bool
  | [], b => pure b
  | k :: rest, b => do
    let b2 ← if b then f k else pure false
    satFoldAnd f rest b2

/-- The `boolean = boolean or is_satisfiable(...)` loop (`or`
short-circuits symmetrically). -/
def satFoldOr (f : Nat → Option Bool) : List Nat → Bool → Option Bool
  | [], b => pure b
  | k :: rest, b => do
    let b2 ← if b then pure true else f k
    satFoldOr f rest b2

/-- `is_satisfiable`, dispatching on the first character of the label:
`'F'` is false, `'A'` conjoins the children, `'O'` disjoins them, and
anything else (constants true and literals) is true.  Recursion is
fuelled; exhausted fuel (Python: unbounded recursion) is `none`. -/
def is_satisfiable (d : dDNNF) : Nat → Nat → Option Bool
  | 0, _ => none
  | fuel + 1, i => do
    let lab ← d.label.get? i
    let c ← firstChar lab
    if c = 'F' then pure false
    else if c = 'A' then do
      let ch ← d.children.get? i
      let j ← ch.get? 0
      let b ← is_satisfiable d fuel j
      satFoldAnd (fun w => is_satisfiable d fuel w) ch.tail b
    else if c = 'O' then do
      let ch ← d.children.get? i
      let j ← ch.get? 0
      let b ← is_satisfiable d fuel j
      satFoldOr (fun w => is_satisfiable d fuel w) ch.tail b
    else pure true

/-! ### Reason enumerator (Π) -/

/-- `prod_cart`: the pairwise union product, in Python's nested list
comprehension order. -/
def prod_cart (s1 s2 : List (Finset Int)) : List (Finset Int) :=
  s1.flatMap (fun x => s2.map (fun y => x ∪ y))

/-- The deduplication pass `[res[i] for i in range(len(res)) if res[i]
not in res[i+1:]]`: keeps the last occurrence of each set. -/
def dedupKeepLast : List (Finset Int) → List (Finset Int)
  | [] => []
  | s :: rest =>
    if s ∈ rest then dedupKeepLast rest else s :: dedupKeepLast rest

/-- `remove_subsumed`: drop any set that has a strict subset in the
collection, then deduplicate keeping last occurrences. -/
def remove_subsumed (r : List (Finset Int)) : List (Finset Int) :=
  dedupKeepLast (r.filter (fun s1 => !(r.any (fun s2 => decide (s2 ⊂ s1)))))

/-- The `r = prod_cart(r, Pi(...))` loop of the `And` branch (no
short-circuiting: every child is evaluated). -/
def piFoldAnd (f : Nat → Option (List (Finset Int))) :
    List Nat → List (Finset Int) → Option (List (Finset Int))
  | [], r => pure r
  | k :: rest, r => do
    let s ← f k
    piFoldAnd f rest (prod_cart r s)

/-- The `r = r + Pi(...)` loop of the `Or` branch. -/
def piFoldOr (f : Nat → Option (List (Finset Int))) :
    List Nat → List (Finset Int) → Option (List (Finset Int))
  | [], r => pure r
  | k :: rest, r => do
    let s ← f k
    piFoldOr f rest (r ++ s)

/-- `Pi`: the sufficient-reason enumerator.  Dispatch is exactly the
source's: whole-string comparisons with `'F'`, `'T'`, `'A'`, then first
character `'O'`, else a literal parsed with `int`.  Every branch's
result passes through `remove_subsumed`. -/
def Pi (d : dDNNF) : Nat → Nat → Option (List (Finset Int))
  | 0, _ => none
  | fuel + 1, i => do
    let lab ← d.label.get? i
    let r ←
      if lab = "F" then pure ([] : List (Finset Int))
      else if lab = "T" then pure [(∅ : Finset Int)]
      else if lab = "A" then do
        let ch ← d.children.get? i
        let j ← ch.get? 0
        let r0 ← Pi d fuel j
        piFoldAnd (fun w => Pi d fuel w) ch.tail r0
      else do
        let c ← firstChar lab
        if c = 'O' then do
          let ch ← d.children.get? i
          let j ← ch.get? 0
          let r0 ← Pi d fuel j
          piFoldOr (fun w => Pi d fuel w) ch.tail r0
        else do
          let x ← pyInt lab
          pure [({x} : Finset Int)]
    pure (remove_subsumed r)

/-! ### Query layer -/

/-- The minimality loop of `because_t`: for each `(c, v)` of `t` in
order, condition the decision circuit on the flipped literal and fail
as soon as one such conditioning is satisfiable. -/
def becauseLoop (d : dDNNF) (fuel : Nat) : List (Int × Bool) → Option Bool
  | [] => pure true
  | (c, v) :: rest => do
    let cd ← condition d [(c, !v)]
    let b ← is_satisfiable cd fuel 0
    if b then pure false else becauseLoop d fuel rest

/-- `because_t`: true iff conditioning the negated circuit on `t` is
unsatisfiable and conditioning the circuit on each single flipped
literal of `t` is unsatisfiable. -/
def because_t (d : dDNNF) (fuel : Nat) (t : List (Int × Bool)) :
    Option Bool := do
  let nd ← negate d
  let cd ← condition nd t
  let b ← is_satisfiable cd fuel 0
  if b then pure false else becauseLoop d fuel t

/-- One iteration of the `necessary_property` loop for variable
`i0 + 1`: add the literal `i` when conditioning with `{i: False}` is
unsatisfiable, and `-i` when conditioning with `{i: True}` is. -/
def npStep (d : dDNNF) (fuel : Nat) (res : List Int) (i0 : Nat) :
    Option (List Int) := do
  let i : Int := (i0 : Int) + 1
  let cp ← condition d [(i, false)]
  let cn ← condition d [(i, true)]
  let bp ← is_satisfiable cp fuel 0
  let bn ← is_satisfiable cn fuel 0
  let res2 := if bp then res else res ++ [i]
  pure (if bn then res2 else res2 ++ [-i])

/-- `necessary_property`: loop `npStep` over the variables `1..m`.
The Python result is a set built by those insertions; it is modelled as
the insertion-ordered (duplicate-free by construction) list. -/
def necessary_property (d : dDNNF) (fuel m : Nat) : Option (List Int) :=
  (List.range m).foldlM (npStep d fuel) []

/-- `necessary_Reason`: build the dict `{abs(x): x < 0}` from the
necessary property (positive literals assigned False, negative
literals True), condition on it, and return the necessary property
when the result is unsatisfiable and the empty set otherwise. -/
def necessary_Reason (d : dDNNF) (fuel m : Nat) : Option (List Int) := do
  let np ← necessary_property d fuel m
  let a := np.map (fun x => ((x.natAbs : Int), decide (x < 0)))
  let cd ← condition d a
  let b ← is_satisfiable cd fuel 0
  pure (if b then [] else np)

/-- `evenIf_because_t`: shallow-copies the circuit (value copy here;
the aliasing of the inner children lists, which the Python shallow copy
shares with the caller's circuit, is captured by `evenIf_base_after`),
builds the perturbed instance `b` by flipping the variables of `p`,
runs consensus and filter on the copy and evaluates `because_t`. -/
def evenIf_because_t (d : dDNNF) (fuel : Nat) (a : List Int)
    (t : List (Int × Bool)) (p : Finset Int) : Option Bool := do
  let v := d.label.length
  if d.children.length < v then none
  else do
    let db : dDNNF := ⟨d.children.take v, d.label⟩
    let b := (List.range a.length).map (fun (i : Nat) =>
      if ((i : Int) + 1) ∈ p then 1 - a.getD i 0 else a.getD i 0)
    let db1 ← consensus db
    let db2 ← filter db1 b
    because_t db2 fuel t

/-- The state of the CALLER's circuit object after `evenIf_because_t`.
The Python copy loop `decision_b.children[i] = decision.children[i]`
copies references: `consensus(decision_b)` then appends the new
consensus-node index into those shared inner lists, so the first
`len(label)` children entries of the original become exactly the first
`len(label)` children entries of the consensus result, while the
original's labels (immutable strings, rebound only inside `decision_b`)
are untouched. -/
def evenIf_base_after (d : dDNNF) : Option dDNNF := do
  let v := d.label.length
  if d.children.length < v then none
  else do
    let db : dDNNF := ⟨d.children.take v, d.label⟩
    let db1 ← consensus db
    pure ⟨db1.children.take v ++ d.children.drop v, d.label⟩

/-! ### Spec-side definitions and concrete instances used by the
claims -/

/-- A one-node circuit consisting of the single literal `1`. -/
def litCircuit : dDNNF := ⟨[[]], ["1"]⟩

/-- The assignment the claim C4 says `necessary_Reason` builds from the
necessary property: each positive literal `i` assigned true, each
negative literal `-i` assigned false. -/
def impliedAssign (np : List Int) : List (Int × Bool) :=
  np.map (fun x => ((x.natAbs : Int), decide (0 < x)))

/-- `necessary_Reason` as claim C4 describes it: condition on the
implied assignment and return the necessary property exactly when that
conditioning is unsatisfiable. -/
def claim_necessary_Reason (d : dDNNF) (fuel m : Nat) :
    Option (List Int) := do
  let np ← necessary_property d fuel m
  let cd ← condition d (impliedAssign np)
  let b ← is_satisfiable cd fuel 0
  pure (if b then [] else np)

/-- `necessary_Reason` as amended: the assignment actually used is the
FLIP of the claim's implied assignment (each positive literal assigned
false, each negative literal assigned true). -/
def amended_necessary_Reason (d : dDNNF) (fuel m : Nat) :
    Option (List Int) := do
  let np ← necessary_property d fuel m
  let a := (impliedAssign np).map (fun kv => (kv.1, !kv.2))
  let cd ← condition d a
  let b ← is_satisfiable cd fuel 0
  pure (if b then [] else np)

/-- The label transformation a double negation actually performs:
identity, except that every label starting with `'O'` collapses to the
bare `"O"` (the decision-variable annotation is lost through
`'O' → 'A' → 'O'`). -/
def stripAnn (s : String) : String :=
  if firstChar s = some 'O' then "O" else s

/-- Decidable well-formedness of a single label as the data model
describes it: one of the constants `"T"`, `"F"`, `"A"`, an
`'O'`-headed (annotated or bare) disjunction label, or the canonical
decimal string of an integer literal. -/
def labelCanon (s : String) : Bool :=
  decide (s = "T") || decide (s = "F") || decide (s = "A") ||
  decide (firstChar s = some 'O') ||
  (pyInt s).elim false (fun x => decide (intToStr x = s))

/-- A label is an `Or` label when its first character is `'O'` (the
dispatch `consensus` uses). -/
def isOrLabel (s : String) : Bool :=
  decide (firstChar s = some 'O')

/-- Number of `Or`-labelled nodes in a label list. -/
def countOr (l : List String) : Nat :=
  (l.filter isOrLabel).length

/-- A circuit whose root is an `Or` annotated with the two-digit
decision variable 12, whose branches contain the literal `12` itself:
node 0 = `Or(12)` over nodes 1 and 2; node 1 = `And(12, 5)`;
node 2 = `And(12)`. -/
def orTwelveCircuit : dDNNF :=
  ⟨[[1, 2], [3, 4], [3], [], []], ["O12", "A", "A", "12", "5"]⟩

/-- A small decision circuit with one `Or(1)` node over two `And`
branches, used to exhibit the aliasing mutation of
`evenIf_because_t`. -/
def evenIfBase : dDNNF :=
  ⟨[[1, 2], [3, 4], [5, 6], [], [], [], []],
   ["O1", "A", "A", "1", "2", "-1", "2"]⟩

/-- Well-formedness of a single label for the evaluator and Π: one of
the exact constants `"T"`, `"F"`, `"A"`, an `'O'`-headed label, or a
string `int` accepts. -/
def labelOk (s : String) : Bool :=
  decide (s = "T") || decide (s = "F") || decide (s = "A") ||
  decide (firstChar s = some 'O') || (pyInt s).isSome

/-- Basic circuit well-formedness for the satisfiability evaluator
and the reason enumerator: parallel lists of equal length, well-formed
labels, and no childless `And`/`Or` nodes (the compiled format maps
those to the constants `T`/`F`). -/
def evalWF (d : dDNNF) : Prop :=
  d.children.length = d.label.length ∧
  (∀ s ∈ d.label, labelOk s = true) ∧
  (∀ i, i < d.label.length →
    (d.label.getD i "" = "A" ∨ firstChar (d.label.getD i "") = some 'O') →
    d.children.getD i [] ≠ [])

/-- Acyclicity of the circuit graph, witnessed by a rank `rk` that
drops along every edge (a finite graph is acyclic exactly when such a
rank exists); children must also stay in range.  Children indices need
NOT be monotone: `consensus` appends nodes whose children point
backward into the table, and such circuits carry a rank all the
same. -/
def rankWF (d : dDNNF) (rk : Nat → Nat) : Prop :=
  ∀ i, i < d.label.length →
    ∀ j ∈ d.children.getD i [], rk j < rk i ∧ j < d.label.length

/-- The circuit `consensus` produces from `evenIfBase` (evaluating
`consensus evenIfBase` yields exactly this table): the appended
consensus node 7 points BACK at the literal nodes 4 and 6 below it,
so its children are not monotone. -/
def postConsensus : dDNNF :=
  ⟨[[1, 2, 7], [3, 4], [5, 6], [], [], [], [], [4, 6]],
   ["O1", "A", "A", "1", "2", "-1", "2", "A"]⟩

/-- A rank witnessing the acyclicity of `postConsensus`. -/
def postConsensusRank (i : Nat) : Nat :=
  if i = 0 then 2 else if i = 1 ∨ i = 2 ∨ i = 7 then 1 else 0

/-! ### A model of well-formed compiled-circuit text (for C9)

A well-formed text is the rendering of a list of node descriptions in
the compiler's top-down order: `A k c1..ck` (`k = 0` is the constant
true), `O x 0` (constant false), `O x 2 c1 c2` (decision node on `x`),
or `tag l` for a literal leaf. -/

theorem dedupKeepLast_subset (l : List (Finset Int)) :
    dedupKeepLast l ⊆ l := by
  induction l with
  | nil => simp [dedupKeepLast]
  | cons s rest ih =>
    simp only [dedupKeepLast]
    split
    · exact fun a ha => List.mem_cons_of_mem _ (ih ha)
    · intro a ha
      rcases List.mem_cons.mp ha with h | h
      · exact h ▸ List.mem_cons_self _ _
      · exact List.mem_cons_of_mem _ (ih h)

theorem dedupKeepLast_nodup (l : List (Finset Int)) :
    (dedupKeepLast l).Nodup := by
  induction l with
  | nil => simp [dedupKeepLast]
  | cons s rest ih =>
    simp only [dedupKeepLast]
    split
    · exact ih
    · exact List.Nodup.cons (fun hm => (by assumption : ¬ s ∈ rest)
        (dedupKeepLast_subset rest hm)) ih

theorem dedupKeepLast_ne_nil (l : List (Finset Int)) (h : l ≠ []) :
    dedupKeepLast l ≠ [] := by
  induction l with
  | nil => exact absurd rfl h
  | cons s rest ih =>
    simp only [dedupKeepLast]
    split
    · exact ih (List.ne_nil_of_mem (by assumption))
    · simp

theorem exists_min_card (r : List (Finset Int)) (h : r ≠ []) :
    ∃ s ∈ r, ∀ t ∈ r, s.card ≤ t.card := by
  induction r with
  | nil => exact absurd rfl h
  | cons s rest ih =>
    rcases rest with _ | ⟨_, _⟩
    · exact ⟨s, List.mem_cons_self _ _, by simp⟩
    · obtain ⟨m, hm, hmin⟩ := ih (by simp)
      by_cases hc : s.card ≤ m.card
      · refine ⟨s, List.mem_cons_self _ _, ?_⟩
        intro t ht
        rcases List.mem_cons.mp ht with h | h
        · simp [h]
        · exact le_trans hc (hmin t h)
      · exact ⟨m, List.mem_cons_of_mem _ hm, fun t ht => by
          rcases List.mem_cons.mp ht with h | h
          · exact h ▸ le_of_lt (lt_of_not_le hc)
          · exact hmin t h⟩

theorem remove_subsumed_subset (r : List (Finset Int)) :
    remove_subsumed r ⊆ r :=
  fun _ ha => List.mem_of_mem_filter (dedupKeepLast_subset _ ha)

theorem remove_subsumed_no_ssubset (r : List (Finset Int)) {s1 s2 : Finset Int}
    (h1 : s1 ∈ remove_subsumed r) (h2 : s2 ∈ remove_subsumed r) :
    ¬ s2 ⊂ s1 := by
  have h1f := dedupKeepLast_subset _ h1
  have := List.of_mem_filter h1f
  simp only [Bool.not_eq_true', List.any_eq_false] at this
  exact fun hss => this s2 (remove_subsumed_subset r h2) (decide_eq_true hss)

theorem remove_subsumed_nodup (r : List (Finset Int)) :
    (remove_subsumed r).Nodup :=
  dedupKeepLast_nodup _

theorem remove_subsumed_nil : remove_subsumed [] = [] := rfl

theorem remove_subsumed_ne_nil (r : List (Finset Int)) (h : r ≠ []) :
    remove_subsumed r ≠ [] := by
  obtain ⟨s, hs, hmin⟩ := exists_min_card r h
  apply dedupKeepLast_ne_nil
  apply List.ne_nil_of_mem (a := s)
  apply List.mem_filter.mpr
  refine ⟨hs, ?_⟩
  simp only [Bool.not_eq_true', List.any_eq_false]
  intro t ht hss
  exact absurd (hmin t ht)
    (not_le_of_lt (Finset.card_lt_card (of_decide_eq_true hss)))

theorem remove_subsumed_eq_nil_iff (r : List (Finset Int)) :
    remove_subsumed r = [] ↔ r = [] := by
  constructor
  · intro h
    by_contra hne
    exact remove_subsumed_ne_nil r hne h
  · intro h
    simp [h, remove_subsumed_nil]

/-! ### Lemmas about decimal printing and parsing -/

theorem digitChar_isDigit (k : Nat) : (digitChar k).isDigit = true := by
  match k with
  | 0 | 1 | 2 | 3 | 4 | 5 | 6 | 7 | 8 => rfl
  | _ + 9 => rfl

theorem digitVal_digitChar (k : Nat) (h : k < 10) :
    digitVal (digitChar k) = k := by
  interval_cases k <;> decide

theorem natDigitsAux_congr (n : Nat) : ∀ f1 f2, n < f1 → n < f2 →
    natDigitsAux f1 n = natDigitsAux f2 n := by
  induction n using Nat.strong_induction_on with
  | _ n ih =>
    intro f1 f2 h1 h2
    obtain ⟨fa, rfl⟩ : ∃ fa, f1 = fa + 1 := ⟨f1 - 1, by omega⟩
    obtain ⟨fb, rfl⟩ : ∃ fb, f2 = fb + 1 := ⟨f2 - 1, by omega⟩
    rw [natDigitsAux, natDigitsAux]
    split
    · rfl
    · rename_i h
      have hd : n / 10 < n := Nat.div_lt_self (by omega) (by omega)
      congr 1
      exact ih (n / 10) hd fa fb (by omega) (by omega)

/-- The intended recursion equation for `natDigits`. -/
theorem natDigits_eq (n : Nat) : natDigits n =
    if n < 10 then [digitChar n]
    else natDigits (n / 10) ++ [digitChar (n % 10)] := by
  show natDigitsAux (n + 1) n = _
  rw [natDigitsAux]
  split
  · rfl
  · rename_i h
    congr 1
    have hd : n / 10 < n := Nat.div_lt_self (by omega) (by omega)
    exact natDigitsAux_congr (n / 10) n (n / 10 + 1) (by omega) (by omega)

theorem natDigits_ne_nil (n : Nat) : natDigits n ≠ [] := by
  rw [natDigits_eq]
  split <;> simp

theorem natDigits_all_digit (n : Nat) :
    (natDigits n).all (fun c => c.isDigit) = true := by
  induction n using Nat.strong_induction_on with
  | _ n ih =>
    rw [natDigits_eq]
    split
    · simp [digitChar_isDigit]
    · rename_i h
      rw [List.all_append]
      simp [ih (n / 10) (Nat.div_lt_self (by omega) (by omega)),
        digitChar_isDigit]

theorem digitsVal_append (l : List Char) (c : Char) :
    digitsVal (l ++ [c]) = 10 * digitsVal l + digitVal c := by
  simp [digitsVal, List.foldl_append]

theorem digitsVal_natDigits (n : Nat) : digitsVal (natDigits n) = n := by
  induction n using Nat.strong_induction_on with
  | _ n ih =>
    rw [natDigits_eq]
    split
    · rename_i h
      simp [digitsVal, digitVal_digitChar n h]
    · rename_i h
      rw [digitsVal_append,
        ih (n / 10) (Nat.div_lt_self (by omega) (by omega)),
        digitVal_digitChar (n % 10) (Nat.mod_lt _ (by omega))]
      omega

theorem digitChar_not_pad (k : Nat) : intPad (digitChar k) = false := by
  match k with
  | 0 | 1 | 2 | 3 | 4 | 5 | 6 | 7 | 8 => rfl
  | _ + 9 => rfl

theorem natDigits_all_not_pad (n : Nat) :
    (natDigits n).all (fun c => !intPad c) = true := by
  induction n using Nat.strong_induction_on with
  | _ n ih =>
    rw [natDigits_eq]
    split
    · simp [digitChar_not_pad]
    · rename_i h
      rw [List.all_append]
      simp [ih (n / 10) (Nat.div_lt_self (by omega) (by omega)),
        digitChar_not_pad]

theorem dropWhile_eq_self_of {p : Char → Bool} {l : List Char}
    (h : ∀ c ∈ l, p c = false) : l.dropWhile p = l := by
  cases l with
  | nil => rfl
  | cons c rest =>
    rw [List.dropWhile_cons, if_neg]
    rw [h c (List.mem_cons_self _ _)]
    simp

theorem dropTrailingPad_eq_self {l : List Char}
    (h : ∀ c ∈ l, intPad c = false) : dropTrailingPad l = l := by
  unfold dropTrailingPad
  rw [dropWhile_eq_self_of (fun c hc => h c (List.mem_reverse.mp hc)),
    List.reverse_reverse]

theorem stripPad_eq_self {l : List Char}
    (h : ∀ c ∈ l, intPad c = false) : stripPad l = l := by
  unfold stripPad
  rw [dropWhile_eq_self_of h, dropTrailingPad_eq_self h]

theorem dropWhile_append_singleton {p : Char → Bool} (c : Char)
    (hc : p c = false) :
    ∀ xs : List Char, (xs ++ [c]).dropWhile p = xs.dropWhile p ++ [c] := by
  intro xs
  induction xs with
  | nil =>
    show List.dropWhile p [c] = [c]
    rw [List.dropWhile_cons, if_neg]
    rw [hc]
    simp
  | cons y ys ih =>
    show List.dropWhile p (y :: (ys ++ [c])) = _
    rw [List.dropWhile_cons, List.dropWhile_cons]
    by_cases hy : p y = true
    · rw [if_pos hy, if_pos hy, ih]
    · rw [if_neg hy, if_neg hy]
      simp

theorem dropTrailingPad_cons {c : Char} (hc : intPad c = false)
    (l : List Char) :
    dropTrailingPad (c :: l) = c :: dropTrailingPad l := by
  unfold dropTrailingPad
  rw [List.reverse_cons, dropWhile_append_singleton c hc, List.reverse_append]
  rfl

theorem stripPad_cons {c : Char} (hc : intPad c = false) (l : List Char) :
    stripPad (c :: l) = c :: dropTrailingPad l := by
  unfold stripPad
  rw [List.dropWhile_cons, if_neg (by rw [hc]; simp), dropTrailingPad_cons hc]

theorem intDigitsRest_digits :
    ∀ l : List Char, (∀ c ∈ l, c.isDigit = true) → ∀ acc,
      intDigitsRest acc l =
        some (l.foldl (fun a c => 10 * a + digitVal c) acc) := by
  intro l
  induction l with
  | nil => exact fun _ _ => rfl
  | cons c rest ih =>
    intro h acc
    cases rest with
    | nil =>
      rw [intDigitsRest, if_pos (h c (List.mem_cons_self _ _))]
      rfl
    | cons c2 rest2 =>
      rw [intDigitsRest, if_pos (h c (List.mem_cons_self _ _)),
        ih (fun x hx => h x (List.mem_cons_of_mem _ hx)) _]
      simp [List.foldl_cons]

theorem intDigits_digits (l : List Char) (hne : l ≠ [])
    (h : ∀ c ∈ l, c.isDigit = true) : intDigits l = some (digitsVal l) := by
  cases l with
  | nil => exact absurd rfl hne
  | cons c rest =>
    rw [intDigits, if_pos (h c (List.mem_cons_self _ _)),
      intDigitsRest_digits rest (fun c hc => h c (List.mem_cons_of_mem _ hc))]
    unfold digitsVal
    rw [List.foldl_cons]
    have : 10 * 0 + digitVal c = digitVal c := by omega
    rw [this]

theorem natDigits_no_pad (n : Nat) :
    ∀ c ∈ natDigits n, intPad c = false := by
  intro c hc
  have := List.all_eq_true.mp (natDigits_all_not_pad n) c hc
  simpa using this

theorem intDigits_natDigits (n : Nat) :
    intDigits (natDigits n) = some n := by
  rw [intDigits_digits (natDigits n) (natDigits_ne_nil n)
    (fun c hc => List.all_eq_true.mp (natDigits_all_digit n) c hc),
    digitsVal_natDigits]

theorem pyIntAux_natDigits (n : Nat) :
    pyIntAux (natDigits n) = some (n : Int) := by
  show pyIntParse (stripPad (natDigits n)) = some (n : Int)
  rw [stripPad_eq_self (natDigits_no_pad n)]
  cases h : natDigits n with
  | nil => exact absurd h (natDigits_ne_nil n)
  | cons c rest =>
    have hdig : c.isDigit = true := by
      have := natDigits_all_digit n
      rw [h, List.all_cons, Bool.and_eq_true] at this
      exact this.1
    have hm : ¬ c = '-' := by
      intro e
      rw [e] at hdig
      exact absurd hdig (by decide)
    have hp : ¬ c = '+' := by
      intro e
      rw [e] at hdig
      exact absurd hdig (by decide)
    rw [pyIntParse, if_neg hm, if_neg hp, ← h, intDigits_natDigits]
    rfl

theorem pyInt_intToStr (x : Int) : pyInt (intToStr x) = some x := by
  unfold intToStr
  split
  · rename_i hneg
    show pyIntParse (stripPad ('-' :: natDigits x.natAbs)) = some x
    rw [stripPad_cons (by rfl), dropTrailingPad_eq_self (natDigits_no_pad _),
      pyIntParse, if_pos rfl, intDigits_natDigits]
    show some (-(x.natAbs : Int)) = some x
    congr 1
    omega
  · rename_i hpos
    show pyIntAux (natDigits x.toNat) = some x
    rw [pyIntAux_natDigits]
    congr 1
    omega

theorem pyInt_some_firstChar {s : String} {x : Int} (h : pyInt s = some x) :
    ∃ c, firstChar s = some c ∧
      (c = '-' ∨ c = '+' ∨ c.isDigit = true ∨ intPad c = true) := by
  unfold pyInt pyIntAux at h
  cases hd : s.data with
  | nil =>
    rw [hd] at h
    exact Option.noConfusion h
  | cons c rest =>
    have hfc : firstChar s = some c := by
      unfold firstChar
      rw [hd]
      rfl
    by_cases hpad : intPad c = true
    · exact ⟨c, hfc, Or.inr (Or.inr (Or.inr hpad))⟩
    · have hpadf : intPad c = false := by
        rwa [Bool.not_eq_true] at hpad
      rw [hd, stripPad_cons hpadf] at h
      by_cases hm : c = '-'
      · exact ⟨c, hfc, Or.inl hm⟩
      · by_cases hp : c = '+'
        · exact ⟨c, hfc, Or.inr (Or.inl hp)⟩
        · rw [pyIntParse, if_neg hm, if_neg hp, intDigits] at h
          by_cases hdig : c.isDigit = true
          · exact ⟨c, hfc, Or.inr (Or.inr (Or.inl hdig))⟩
          · rw [if_neg hdig] at h
            exact Option.noConfusion h

theorem dash_digit_not_TFAO {c : Char} (h : c = '-' ∨ c.isDigit = true) :
    c ≠ 'T' ∧ c ≠ 'F' ∧ c ≠ 'A' ∧ c ≠ 'O' := by
  rcases h with rfl | h
  · refine ⟨by decide, by decide, by decide, by decide⟩
  · refine ⟨?_, ?_, ?_, ?_⟩ <;> rintro rfl <;> exact absurd h (by decide)

theorem intLead_not_TFAO {c : Char}
    (h : c = '-' ∨ c = '+' ∨ c.isDigit = true ∨ intPad c = true) :
    c ≠ 'T' ∧ c ≠ 'F' ∧ c ≠ 'A' ∧ c ≠ 'O' := by
  rcases h with rfl | rfl | h | h
  · refine ⟨by decide, by decide, by decide, by decide⟩
  · refine ⟨by decide, by decide, by decide, by decide⟩
  · refine ⟨?_, ?_, ?_, ?_⟩ <;> rintro rfl <;> exact absurd h (by decide)
  · refine ⟨?_, ?_, ?_, ?_⟩ <;> rintro rfl <;> exact absurd h (by decide)

theorem firstChar_intToStr (x : Int) :
    ∃ c, firstChar (intToStr x) = some c ∧ (c = '-' ∨ c.isDigit = true) := by
  unfold intToStr
  split
  · exact ⟨'-', rfl, Or.inl rfl⟩
  · cases h : natDigits x.toNat with
    | nil => exact absurd h (natDigits_ne_nil _)
    | cons c rest =>
      refine ⟨c, rfl, Or.inr ?_⟩
      have := natDigits_all_digit x.toNat
      rw [h, List.all_cons, Bool.and_eq_true] at this
      exact this.1

/-! ### Claim C3: the subsumption invariant of Π -/

theorem Pi_eq_remove_subsumed (d : dDNNF) (fuel i : Nat)
    (l : List (Finset Int)) (h : Pi d fuel i = some l) :
    ∃ r, l = remove_subsumed r := by
  cases fuel with
  | zero => simp [Pi] at h
  | succ fuel =>
    rw [Pi] at h
    simp only [Option.bind_eq_bind, Option.bind_eq_some, Option.pure_def,
      Option.some_inj] at h
    obtain ⟨lab, hlab, h⟩ := h
    split at h
    · simp only [Option.some_bind, Option.some_inj] at h
      exact ⟨[], h.symm⟩
    · split at h
      · simp only [Option.some_bind, Option.some_inj] at h
        exact ⟨[∅], h.symm⟩
      · split at h
        · simp only [Option.bind_eq_some, Option.some_inj] at h
          obtain ⟨ch, _, j, _, r0, _, r, _, hre⟩ := h
          exact ⟨r, hre.symm⟩
        · simp only [Option.bind_eq_some, Option.some_inj] at h
          obtain ⟨c, hc, h⟩ := h
          split at h
          · simp only [Option.bind_eq_some, Option.some_inj] at h
            obtain ⟨ch, _, j, _, r0, _, r, _, hre⟩ := h
            exact ⟨r, hre.symm⟩
          · simp only [Option.bind_eq_some, Option.some_bind,
              Option.some_inj] at h
            obtain ⟨x, _, hre⟩ := h
            exact ⟨[{x}], hre.symm⟩

/-- C3: every list returned by `Pi` contains no reason that is a strict
superset of another reason in the same list, and no two reasons in the
list are equal as sets. -/
theorem C3_Pi_subsumption_invariant (d : dDNNF) (fuel i : Nat)
    (l : List (Finset Int)) (h : Pi d fuel i = some l) :
    (∀ s1 ∈ l, ∀ s2 ∈ l, ¬ s2 ⊂ s1) ∧ l.Nodup := by
  obtain ⟨r, rfl⟩ := Pi_eq_remove_subsumed d fuel i l h
  exact ⟨fun s1 h1 s2 h2 => remove_subsumed_no_ssubset r h1 h2,
    remove_subsumed_nodup r⟩

/-! ### Claim C1: the `because_t` query

The claim states that `because_t` returns true iff conditioning the
negated circuit on `t` is unsatisfiable (a) and, for minimality,
conditioning the original circuit on each single flipped literal is
SATISFIABLE (b).  The code requires the flipped conditionings to be
UNSATISFIABLE (it returns False as soon as one is satisfiable), which
also matches the notebook's own case study. -/

/-- C1 counterexample: on the literal circuit `1` with `t = {1: True}`,
`because_t` returns True, while the claimed characterisation demands
that conditioning the circuit on the flipped literal `{1: False}` be
satisfiable — it is not (it yields the constant-False circuit), so the
claimed equivalence is false at this input. -/
theorem C1_counterexample :
    ¬ (because_t litCircuit 9 [(1, true)] = some true ↔
        (((negate litCircuit).bind (fun nd => (condition nd [(1, true)]).bind
            (fun cd => is_satisfiable cd 9 0)) = some false) ∧
         ((condition litCircuit [(1, false)]).bind
            (fun cd => is_satisfiable cd 9 0) = some true))) := by
  decide

theorem becauseLoop_eq_true_iff (d : dDNNF) (fuel : Nat)
    (t : List (Int × Bool)) :
    becauseLoop d fuel t = some true ↔
      ∀ cv ∈ t, ∃ cd, condition d [(cv.1, !cv.2)] = some cd ∧
        is_satisfiable cd fuel 0 = some false := by
  induction t with
  | nil => simp [becauseLoop]
  | cons cv rest ih =>
    obtain ⟨c, v⟩ := cv
    rw [becauseLoop]
    cases hcd : condition d [(c, !v)] with
    | none =>
      show (none : Option Bool) = some true ↔ _
      constructor
      · intro h
        exact Option.noConfusion h
      · intro h
        obtain ⟨cd, hc, _⟩ := h (c, v) (List.mem_cons_self _ _)
        have hc2 : condition d [(c, !v)] = some cd := hc
        rw [hcd] at hc2
        exact Option.noConfusion hc2
    | some cd =>
      show ((is_satisfiable cd fuel 0).bind fun b =>
          if b = true then some false else becauseLoop d fuel rest) =
            some true ↔ _
      cases hb : is_satisfiable cd fuel 0 with
      | none =>
        show (none : Option Bool) = some true ↔ _
        constructor
        · intro h
          exact Option.noConfusion h
        · intro h
          obtain ⟨cd2, hc2, hs2⟩ := h (c, v) (List.mem_cons_self _ _)
          have hc3 : condition d [(c, !v)] = some cd2 := hc2
          rw [hcd] at hc3
          cases hc3
          rw [hb] at hs2
          exact Option.noConfusion hs2
      | some b =>
        cases b with
        | true =>
          show (some false : Option Bool) = some true ↔ _
          constructor
          · intro h
            exact Bool.noConfusion (Option.some_inj.mp h)
          · intro h
            obtain ⟨cd2, hc2, hs2⟩ := h (c, v) (List.mem_cons_self _ _)
            have hc3 : condition d [(c, !v)] = some cd2 := hc2
            rw [hcd] at hc3
            cases hc3
            rw [hb] at hs2
            exact Bool.noConfusion (Option.some_inj.mp hs2)
        | false =>
          show becauseLoop d fuel rest = some true ↔ _
          rw [ih]
          constructor
          · intro h cv2 hm
            rcases List.mem_cons.mp hm with rfl | hm2
            · exact ⟨cd, hcd, hb⟩
            · exact h cv2 hm2
          · intro h cv2 hm
            exact h cv2 (List.mem_cons_of_mem _ hm)

/-- C1 (amended): `because_t(d, t)` returns True iff (a) conditioning
`negate(d)` on `t` yields an unsatisfiable circuit, and (b) for every
single literal `(variable, value)` of `t`, conditioning the original
circuit `d` on just that one literal flipped also yields an
UNSATISFIABLE circuit (the claim said satisfiable). -/
theorem C1_because_t_eq_true_iff (d : dDNNF) (fuel : Nat)
    (t : List (Int × Bool)) :
    because_t d fuel t = some true ↔
      ((∃ nd cd, negate d = some nd ∧ condition nd t = some cd ∧
          is_satisfiable cd fuel 0 = some false) ∧
       ∀ cv ∈ t, ∃ cd, condition d [(cv.1, !cv.2)] = some cd ∧
          is_satisfiable cd fuel 0 = some false) := by
  rw [because_t]
  cases hnd : negate d with
  | none =>
    show (none : Option Bool) = some true ↔ _
    constructor
    · intro h
      exact Option.noConfusion h
    · rintro ⟨⟨nd, cd, hn, -, -⟩, -⟩
      exact Option.noConfusion hn
  | some nd =>
    show ((condition nd t).bind fun cd =>
        (is_satisfiable cd fuel 0).bind fun b =>
          if b = true then some false else becauseLoop d fuel t) =
            some true ↔ _
    cases hcd : condition nd t with
    | none =>
      show (none : Option Bool) = some true ↔ _
      constructor
      · intro h
        exact Option.noConfusion h
      · rintro ⟨⟨nd2, cd, hn, hc, -⟩, -⟩
        cases hn
        rw [hcd] at hc
        exact Option.noConfusion hc
    | some cd =>
      show ((is_satisfiable cd fuel 0).bind fun b =>
          if b = true then some false else becauseLoop d fuel t) =
            some true ↔ _
      cases hb : is_satisfiable cd fuel 0 with
      | none =>
        show (none : Option Bool) = some true ↔ _
        constructor
        · intro h
          exact Option.noConfusion h
        · rintro ⟨⟨nd2, cd2, hn, hc, hs⟩, -⟩
          cases hn
          rw [hcd] at hc
          cases hc
          rw [hb] at hs
          exact Option.noConfusion hs
      | some b =>
        cases b with
        | true =>
          show (some false : Option Bool) = some true ↔ _
          constructor
          · intro h
            exact Bool.noConfusion (Option.some_inj.mp h)
          · rintro ⟨⟨nd2, cd2, hn, hc, hs⟩, -⟩
            cases hn
            rw [hcd] at hc
            cases hc
            rw [hb] at hs
            exact Bool.noConfusion (Option.some_inj.mp hs)
        | false =>
          show becauseLoop d fuel t = some true ↔ _
          rw [becauseLoop_eq_true_iff]
          constructor
          · intro h
            exact ⟨⟨nd, cd, rfl, hcd, hb⟩, h⟩
          · rintro ⟨-, h⟩
            exact h

/-- Witness for C3 on a concrete two-literal conjunction circuit. -/
theorem C3_witness :
    (∀ s1 ∈ [({1, 2} : Finset Int)], ∀ s2 ∈ [({1, 2} : Finset Int)],
      ¬ s2 ⊂ s1) ∧ ([({1, 2} : Finset Int)]).Nodup :=
  C3_Pi_subsumption_invariant ⟨[[1, 2], [], []], ["A", "1", "2"]⟩ 5 0 _
    (by decide)

/-! ### Claim C4: `necessary_Reason` -/

/-- A property preserved by every step of an `Option`-valued fold is
preserved by the whole fold. -/
theorem foldlM_preserve {α σ : Type} (P : σ → Prop) (f : σ → α → Option σ)
    (hf : ∀ s a, P s → ∀ s2, f s a = some s2 → P s2) :
    ∀ (l : List α) (s : σ), P s → ∀ s2, l.foldlM f s = some s2 → P s2 := by
  intro l
  induction l with
  | nil =>
    intro s hs s2 h
    simp only [List.foldlM_nil] at h
    cases h
    exact hs
  | cons a l ih =>
    intro s hs s2 h
    rw [List.foldlM_cons] at h
    cases hfa : f s a with
    | none => rw [hfa] at h; exact Option.noConfusion h
    | some s1 =>
      rw [hfa] at h
      exact ih s1 (hf s a hs s1 hfa) s2 h

theorem npStep_nonzero (d : dDNNF) (fuel : Nat) (res : List Int) (i0 : Nat)
    (hres : ∀ x ∈ res, x ≠ 0) (res2 : List Int)
    (h : npStep d fuel res i0 = some res2) : ∀ x ∈ res2, x ≠ 0 := by
  cases hcp : condition d [((i0 : Int) + 1, false)] with
  | none => simp [npStep, hcp] at h
  | some cp =>
    cases hcn : condition d [((i0 : Int) + 1, true)] with
    | none => simp [npStep, hcp, hcn] at h
    | some cn =>
      cases hbp : is_satisfiable cp fuel 0 with
      | none => simp [npStep, hcp, hcn, hbp] at h
      | some bp =>
        cases hbn : is_satisfiable cn fuel 0 with
        | none => simp [npStep, hcp, hcn, hbp, hbn] at h
        | some bn =>
          simp only [npStep, hcp, hcn, hbp, hbn, Option.bind_eq_bind,
            Option.some_bind, Option.pure_def, Option.some_inj] at h
          subst h
          intro x hx
          rcases bn with _ | _
          · rcases bp with _ | _
            · simp at hx
              rcases hx with hx | hx | hx
              · exact hres x hx
              · omega
              · omega
            · simp at hx
              rcases hx with hx | hx
              · exact hres x hx
              · omega
          · rcases bp with _ | _
            · simp at hx
              rcases hx with hx | hx
              · exact hres x hx
              · omega
            · simp at hx
              exact hres x hx

theorem necessary_property_nonzero (d : dDNNF) (fuel m : Nat)
    (np : List Int) (h : necessary_property d fuel m = some np) :
    ∀ x ∈ np, x ≠ 0 :=
  foldlM_preserve (fun res => ∀ x ∈ res, x ≠ 0) (npStep d fuel)
    (npStep_nonzero d fuel) (List.range m) [] (by simp) np h

/-- C4 counterexample: on the literal circuit `1` with `m = 1`,
`necessary_Reason` returns the necessary property `{1}`, while the
procedure the claim describes (condition on the IMPLIED assignment
`{1: True}`, which is satisfiable) would return the empty set. -/
theorem C4_counterexample :
    necessary_Reason litCircuit 9 1 = some [1] ∧
    claim_necessary_Reason litCircuit 9 1 = some [] := by
  decide

/-- C4 (amended): `necessary_Reason(d, m)` computes the necessary
property, builds the FLIP of the assignment implied by it (each
positive literal `i` assigned false, each negative literal `-i`
assigned true), and returns the necessary property when conditioning
`d` on that flipped assignment is unsatisfiable, and the empty set
otherwise. -/
theorem C4_necessary_Reason_amended (d : dDNNF) (fuel m : Nat) :
    necessary_Reason d fuel m = amended_necessary_Reason d fuel m := by
  rw [necessary_Reason, amended_necessary_Reason]
  cases hnp : necessary_property d fuel m with
  | none => rfl
  | some np =>
    have hmap : np.map (fun x => ((x.natAbs : Int), decide (x < 0))) =
        (impliedAssign np).map (fun kv => (kv.1, !kv.2)) := by
      unfold impliedAssign
      rw [List.map_map]
      apply List.map_congr_left
      intro x hx
      have hnz := necessary_property_nonzero d fuel m np hnp x hx
      simp only [Function.comp_apply]
      congr 1
      by_cases hpos : 0 < x
      · simp [hpos, not_lt_of_gt hpos, asymm hpos]
      · have hneg : x < 0 := by omega
        simp [hneg, not_lt_of_gt hneg, asymm hneg]
    exact congrArg (fun a => (condition d a).bind fun cd =>
      (is_satisfiable cd fuel 0).bind fun b =>
        some (if b then [] else np)) hmap

/-! ### Claim C5: double negation -/

/-- C5 counterexample: a one-node circuit labelled `O3` (an `Or`
annotated with decision variable 3).  Double negation produces the
bare label `"O"`, so the result is not structurally identical to the
input. -/
theorem C5_counterexample :
    (negate ⟨[[]], ["O3"]⟩).bind negate = some ⟨[[]], ["O"]⟩ ∧
    (⟨[[]], ["O"]⟩ : dDNNF) ≠ ⟨[[]], ["O3"]⟩ := by
  decide

theorem negLabel_canon (s : String) (h : labelCanon s = true) :
    ∃ s1, negLabel s = some s1 ∧ negLabel s1 = some (stripAnn s) := by
  unfold labelCanon at h
  simp only [Bool.or_eq_true, decide_eq_true_eq] at h
  rcases h with ((((rfl | rfl) | rfl) | hO) | hlit)
  · exact ⟨"F", by decide, by decide⟩
  · exact ⟨"T", by decide, by decide⟩
  · exact ⟨"O", by decide, by decide⟩
  · refine ⟨"A", ?_, ?_⟩
    · simp only [negLabel, hO, Option.bind_eq_bind, Option.some_bind]
      rfl
    · rw [stripAnn, if_pos hO]
      decide
  · rcases hpy : pyInt s with _ | x
    · rw [hpy] at hlit
      exact absurd hlit (by simp [Option.elim])
    · rw [hpy] at hlit
      simp only [Option.elim, decide_eq_true_eq] at hlit
      obtain ⟨c, hc0, hcd⟩ := firstChar_intToStr x
      have hc : firstChar s = some c := by
        rw [← hlit]
        exact hc0
      obtain ⟨hT, hF, hA, hOc⟩ := dash_digit_not_TFAO hcd
      refine ⟨intToStr (-x), ?_, ?_⟩
      · simp only [negLabel, hc, Option.bind_eq_bind, Option.some_bind,
          if_neg hT, if_neg hF, if_neg hA, if_neg hOc, hpy]
        rfl
      · obtain ⟨c2, hc2, hcd2⟩ := firstChar_intToStr (-x)
        obtain ⟨hT2, hF2, hA2, hO2⟩ := dash_digit_not_TFAO hcd2
        have hstrip : stripAnn s = s := by
          rw [stripAnn, if_neg]
          rw [hc]
          intro he
          exact hOc (Option.some_inj.mp he)
        rw [hstrip]
        simp only [negLabel, hc2, Option.bind_eq_bind, Option.some_bind,
          if_neg hT2, if_neg hF2, if_neg hA2, if_neg hO2,
          pyInt_intToStr, neg_neg, hlit]
        rfl

theorem mapM_pair {f g : String → Option String} {t : String → String} :
    ∀ l : List String,
      (∀ s ∈ l, ∃ s1, f s = some s1 ∧ g s1 = some (t s)) →
      ∃ l1, l.mapM f = some l1 ∧ l1.mapM g = some (l.map t) ∧
        l1.length = l.length := by
  intro l
  induction l with
  | nil => exact fun _ => ⟨[], rfl, rfl, rfl⟩
  | cons s l ih =>
    intro h
    obtain ⟨s1, hf, hg⟩ := h s (List.mem_cons_self _ _)
    obtain ⟨l1, hlf, hlg, hl⟩ := ih (fun s hs => h s (List.mem_cons_of_mem _ hs))
    refine ⟨s1 :: l1, ?_, ?_, by simp [hl]⟩
    · simp only [List.mapM_cons, hf, hlf, Option.bind_eq_bind,
        Option.some_bind, Option.pure_def]
    · simp only [List.map_cons, List.mapM_cons, hg, hlg, Option.bind_eq_bind,
        Option.some_bind, Option.pure_def]

/-- C5 (amended): for every circuit whose labels are well formed
(constants, `'O'`-headed disjunction labels, canonical literal
strings) and whose `children` and `label` lists have equal length,
`negate(negate(c))` has the same children arrays and the same label at
every node EXCEPT that every `Or` label loses its decision-variable
annotation, collapsing to the bare `"O"`. -/
theorem C5_negate_negate (d : dDNNF)
    (hlen : d.children.length = d.label.length)
    (hcanon : d.label.all labelCanon = true) :
    ∃ d1 d2, negate d = some d1 ∧ negate d1 = some d2 ∧
      d2.children = d.children ∧ d2.label = d.label.map stripAnn := by
  have hall : ∀ s ∈ d.label, labelCanon s = true :=
    fun s hs => List.all_eq_true.mp hcanon s hs
  obtain ⟨l1, hf, hg, hl1⟩ :=
    mapM_pair d.label (fun s hs => negLabel_canon s (hall s hs))
  have hch : d.children.take d.label.length = d.children := by
    rw [← hlen]
    exact List.take_length _
  refine ⟨⟨d.children, l1⟩, ⟨d.children, d.label.map stripAnn⟩, ?_, ?_, rfl, rfl⟩
  · unfold negate
    rw [if_neg (by omega), hf, hch]
    rfl
  · have hch2 : d.children.take l1.length = d.children := by
      rw [hl1, ← hlen]
      exact List.take_length _
    unfold negate
    rw [if_neg (by simp [hlen, hl1]), hg, hch2]
    rfl

/-- Witness for the amended C5 on a concrete annotated circuit. -/
theorem C5_witness :
    ∃ d1 d2, negate ⟨[[1, 2], [], []], ["O3", "1", "-1"]⟩ = some d1 ∧
      negate d1 = some d2 ∧
      d2.children = [[1, 2], [], []] ∧
      d2.label = ["O3", "1", "-1"].map stripAnn :=
  C5_negate_negate ⟨[[1, 2], [], []], ["O3", "1", "-1"]⟩ (by decide) (by decide)

/-! ### Claim C6: consensus truncates the decision-variable annotation

`consensus` computes the resolution variable as `int(label[i][1])` —
the SECOND CHARACTER only — so for an `Or` annotated `12` it filters
the literals `1`/`-1` instead of `12`/`-12`.  The appended `And` node
below keeps child 3, whose label `"12"` IS the annotated variable's
literal and should have been excluded (the claim's expected collected
set is `[4]`). -/

/-- C6: evaluation of `consensus` at the failing input.  The appended
node (index 5) holds `[3, 4, 3]`; filtering by the full annotation
`12` would have produced `[4]`. -/
theorem C6_first_digit_eval :
    consensus orTwelveCircuit =
      some ⟨[[1, 2, 5], [3, 4], [3], [], [], [3, 4, 3]],
            ["O12", "A", "A", "12", "5", "A"]⟩ ∧
    ([3, 4, 3] : List Nat) ≠ [4] := by
  decide

/-! ### Claim C7: `evenIf_because_t` mutates the base circuit

The Python copy loop `decision_b.children[i] = decision.children[i]`
copies list REFERENCES; `consensus(decision_b)` then appends the new
consensus-node index into those shared inner lists, so after the call
the base circuit's `Or` nodes have gained a child index pointing past the
base node table, while the spec and the claim require the base circuit
to be left unchanged. -/

/-- C7: the call completes (returning `some false` here), and the
caller's circuit object afterwards — `evenIf_base_after` — has
children `[1, 2, 7]` at its `Or` node instead of the original
`[1, 2]`; index 7 points past the 7-node base table. -/
theorem C7_mutation_eval :
    evenIf_because_t evenIfBase 9 [1, 1] [(1, true), (2, true)] ∅ =
      some false ∧
    evenIf_base_after evenIfBase =
      some ⟨[[1, 2, 7], [3, 4], [5, 6], [], [], [], []],
            ["O1", "A", "A", "1", "2", "-1", "2"]⟩ ∧
    ([[1, 2, 7], [3, 4], [5, 6], [], [], [], []] : List (List Nat)) ≠
      evenIfBase.children := by
  decide

/-! ### Claim C10: structural invariants of one `consensus` call -/

theorem consensus_fold_invariant (d : dDNNF)
    (hlen : d.children.length = d.label.length) :
    ∀ t, t ≤ d.label.length → ∀ st,
      (List.range t).foldlM consensusStep d = some st →
      st.label = d.label ++ List.replicate (countOr (d.label.take t)) "A" ∧
      st.children.length =
        d.children.length + countOr (d.label.take t) ∧
      (∀ i, i < t → ∀ labi, d.label.get? i = some labi →
        (isOrLabel labi = true →
          ∃ ch0 w, d.children.get? i = some ch0 ∧
            st.children.get? i = some (ch0 ++ [w])) ∧
        (isOrLabel labi = false →
          st.children.get? i = d.children.get? i)) ∧
      (∀ i, t ≤ i → i < d.label.length →
        st.children.get? i = d.children.get? i) := by
  intro t
  induction t with
  | zero =>
    intro _ st h
    simp only [List.range_zero, List.foldlM_nil, Option.pure_def,
      Option.some_inj] at h
    subst h
    refine ⟨by simp [countOr], by simp [countOr], ?_, ?_⟩
    · intro i hi
      omega
    · intro i _ _
      rfl
  | succ t ih =>
    intro ht st h
    rw [List.range_succ, List.foldlM_append] at h
    cases hpre : (List.range t).foldlM consensusStep d with
    | none =>
      rw [hpre] at h
      exact Option.noConfusion h
    | some st0 =>
      rw [hpre] at h
      have h2 : (consensusStep st0 t).bind (fun b2 => some b2) = some st := h
      have hstep : consensusStep st0 t = some st := by
        cases hstep0 : consensusStep st0 t with
        | none => rw [hstep0] at h2; exact Option.noConfusion h2
        | some st1 =>
          rw [hstep0] at h2
          simp only [Option.some_bind] at h2
          rw [h2]
      obtain ⟨IHlab, IHlen, IHdone, IHrest⟩ := ih (by omega) st0 hpre
      have hvt : t < d.label.length := by omega
      cases hl : d.label.get? t with
      | none =>
        rw [List.get?_eq_getElem?, List.getElem?_eq_none_iff] at hl
        omega
      | some labt =>
        have hstlab : st0.label.get? t = some labt := by
          rw [IHlab, List.get?_append hvt]
          exact hl
        have htake : d.label.take (t + 1) = d.label.take t ++ [labt] := by
          rw [List.take_succ, ← List.get?_eq_getElem?, hl]
          rfl
        simp only [consensusStep, hstlab, Option.bind_eq_bind,
          Option.some_bind] at hstep
        cases hfc : firstChar labt with
        | none =>
          rw [hfc] at hstep
          exact Option.noConfusion hstep
        | some c =>
          rw [hfc] at hstep
          simp only [Option.some_bind] at hstep
          by_cases hc : c = 'O'
          · subst hc
            have hisor : isOrLabel labt = true := by
              simp [isOrLabel, hfc]
            have hcnt : countOr (d.label.take (t + 1)) =
                countOr (d.label.take t) + 1 := by
              rw [htake]
              simp [countOr, List.filter_append, hisor]
            rw [if_pos rfl] at hstep
            simp only [Option.bind_eq_bind, Option.bind_eq_some,
              Option.pure_def, Option.some_inj] at hstep
            obtain ⟨x, hx, ch, hch, k1, hk1, j1, hj1, chk, hchk,
              chj, hchj, cons, hcons, hpure⟩ := hstep
            subst hpure
            have hchd : d.children.get? t = some ch := by
              rw [← IHrest t (le_refl t) hvt]
              exact hch
            have htlen : t < (st0.children ++ [cons]).length := by
              rw [List.length_append]
              omega
            refine ⟨?_, ?_, ?_, ?_⟩
            · show st0.label ++ ["A"] = _
              rw [IHlab, hcnt, List.replicate_succ', ← List.append_assoc]
            · show ((st0.children ++ [cons]).set _ _).length = _
              rw [List.length_set, List.length_append, hcnt]
              simp [IHlen]
              omega
            · intro i hi labi hlabi
              by_cases hit : i = t
              · subst hit
                rw [hl] at hlabi
                cases hlabi
                constructor
                · intro _
                  refine ⟨ch, st0.label.length, hchd, ?_⟩
                  show ((st0.children ++ [cons]).set i _).get? i = _
                  rw [List.get?_set_eq, List.get?_append (by omega), hch]
                  rfl
                · intro hfalse
                  rw [hisor] at hfalse
                  exact Bool.noConfusion hfalse
              · have hit2 : i < t := by omega
                have hget : ((st0.children ++ [cons]).set t
                    (ch ++ [st0.label.length])).get? i =
                    st0.children.get? i := by
                  rw [List.get?_set_ne _ _ (fun he => hit he.symm),
                    List.get?_append (by omega)]
                obtain ⟨hor, hnor⟩ := IHdone i hit2 labi hlabi
                constructor
                · intro his
                  obtain ⟨ch0, w, hc0, hc1⟩ := hor his
                  exact ⟨ch0, w, hc0, by rw [hget]; exact hc1⟩
                · intro his
                  rw [hget]
                  exact hnor his
            · intro i hi hiv
              have : ((st0.children ++ [cons]).set t
                  (ch ++ [st0.label.length])).get? i =
                  st0.children.get? i := by
                rw [List.get?_set_ne _ _ (by omega),
                  List.get?_append (by omega)]
              rw [this]
              exact IHrest i (by omega) hiv
          · rw [if_neg hc] at hstep
            have hst : st = st0 := (Option.some_inj.mp hstep).symm
            subst hst
            have hisor : isOrLabel labt = false := by
              simp only [isOrLabel, hfc, decide_eq_false_iff_not]
              intro he
              exact hc (Option.some_inj.mp he)
            have hcnt : countOr (d.label.take (t + 1)) =
                countOr (d.label.take t) := by
              rw [htake]
              simp [countOr, List.filter_append, hisor]
            refine ⟨by rw [IHlab, hcnt], by rw [IHlen, hcnt], ?_, ?_⟩
            · intro i hi labi hlabi
              by_cases hit : i = t
              · subst hit
                rw [hl] at hlabi
                cases hlabi
                constructor
                · intro his
                  rw [hisor] at his
                  exact Bool.noConfusion his
                · intro _
                  exact IHrest i (le_refl i) hvt
              · exact IHdone i (by omega) labi hlabi
            · intro i hi hiv
              exact IHrest i (by omega) hiv

/-- C10: one call to `consensus` on a circuit with `v` nodes, `k` of
them `Or`-labelled, leaves labels `0..v-1` unchanged and appends
exactly `k` new labels, all `"A"`; the node count becomes `v + k`;
every `Or` node gains exactly one extra child (appended at the end of
its original children list) and every other node's children are
untouched. -/
theorem C10_consensus_invariants (d d' : dDNNF)
    (hlen : d.children.length = d.label.length)
    (h : consensus d = some d') :
    d'.label = d.label ++ List.replicate (countOr d.label) "A" ∧
    d'.children.length = d.label.length + countOr d.label ∧
    (∀ i labi, d.label.get? i = some labi →
      (isOrLabel labi = true →
        ∃ ch0 w, d.children.get? i = some ch0 ∧
          d'.children.get? i = some (ch0 ++ [w])) ∧
      (isOrLabel labi = false →
        d'.children.get? i = d.children.get? i)) := by
  obtain ⟨h1, h2, h3, _⟩ := consensus_fold_invariant d hlen
    d.label.length (le_refl _) d' h
  rw [List.take_length] at h1 h2
  refine ⟨h1, by omega, ?_⟩
  intro i labi hlabi
  have hi : i < d.label.length := by
    by_contra hni
    rw [List.get?_eq_getElem?, List.getElem?_eq_none_iff.mpr (by omega)] at hlabi
    exact Option.noConfusion hlabi
  exact h3 i hi labi hlabi

/-- Witness for C10 on a concrete one-`Or` circuit. -/
theorem C10_witness :
    (⟨[[1, 2, 3], [], [], []], ["O1", "1", "-1", "A"]⟩ : dDNNF).label =
      ["O1", "1", "-1"] ++ List.replicate (countOr ["O1", "1", "-1"]) "A" ∧
    (⟨[[1, 2, 3], [], [], []], ["O1", "1", "-1", "A"]⟩ : dDNNF).children.length =
      (["O1", "1", "-1"] : List String).length + countOr ["O1", "1", "-1"] ∧
    (∀ i labi, (["O1", "1", "-1"] : List String).get? i = some labi →
      (isOrLabel labi = true →
        ∃ ch0 w, ([[1, 2], [], []] : List (List Nat)).get? i = some ch0 ∧
          ([[1, 2, 3], [], [], []] : List (List Nat)).get? i =
            some (ch0 ++ [w])) ∧
      (isOrLabel labi = false →
        ([[1, 2, 3], [], [], []] : List (List Nat)).get? i =
          ([[1, 2], [], []] : List (List Nat)).get? i)) :=
  C10_consensus_invariants ⟨[[1, 2], [], []], ["O1", "1", "-1"]⟩
    ⟨[[1, 2, 3], [], [], []], ["O1", "1", "-1", "A"]⟩ (by decide) (by decide)

/-! ### Claim C2: satisfiability agrees with Π-nonemptiness -/

theorem remove_subsumed_singleton (s : Finset Int) :
    remove_subsumed [s] = [s] := by
  simp [remove_subsumed, dedupKeepLast, ssubset_irrefl]

theorem remove_subsumed_isEmpty (r : List (Finset Int)) :
    (remove_subsumed r).isEmpty = r.isEmpty := by
  cases hr : r.isEmpty with
  | true =>
    rw [List.isEmpty_iff] at hr
    subst hr
    rfl
  | false =>
    rw [List.isEmpty_eq_false_iff_exists_mem] at hr
    obtain ⟨a, ha⟩ := hr
    have := remove_subsumed_ne_nil r (List.ne_nil_of_mem ha)
    rw [List.isEmpty_eq_false_iff_exists_mem]
    obtain ⟨b, hb⟩ := List.exists_mem_of_ne_nil _ this
    exact ⟨b, hb⟩

theorem prod_cart_isEmpty (r s : List (Finset Int)) :
    (prod_cart r s).isEmpty = (r.isEmpty || s.isEmpty) := by
  cases r with
  | nil => rfl
  | cons a r2 =>
    cases s with
    | nil => simp [prod_cart]
    | cons b s2 => simp [prod_cart]

theorem append_isEmpty {α : Type} (r s : List α) :
    (r ++ s).isEmpty = (r.isEmpty && s.isEmpty) := by
  cases r with
  | nil => simp
  | cons a r2 => simp

theorem foldAnd_rel (d : dDNNF) (fuel : Nat) (l : List Nat)
    (hrec : ∀ k ∈ l, ∃ b lr, is_satisfiable d fuel k = some b ∧
      Pi d fuel k = some lr ∧ b = !lr.isEmpty) :
    ∀ (b : Bool) (r : List (Finset Int)), b = !r.isEmpty →
      ∃ b2 r2, satFoldAnd (fun w => is_satisfiable d fuel w) l b = some b2 ∧
        piFoldAnd (fun w => Pi d fuel w) l r = some r2 ∧
        b2 = !r2.isEmpty := by
  induction l with
  | nil => exact fun b r hb => ⟨b, r, rfl, rfl, hb⟩
  | cons k rest ih =>
    intro b r hb
    obtain ⟨bk, lk, hsk, hpk, hbk⟩ := hrec k (List.mem_cons_self _ _)
    obtain ⟨b2, r2, hs2, hp2, hb2⟩ :=
      ih (fun w hw => hrec w (List.mem_cons_of_mem _ hw)) (b && bk)
        (prod_cart r lk)
        (by rw [prod_cart_isEmpty, hb, hbk]
            cases r.isEmpty <;> cases lk.isEmpty <;> rfl)
    refine ⟨b2, r2, ?_, ?_, hb2⟩
    · cases b
      · exact hs2
      · show (is_satisfiable d fuel k).bind
            (fun bn => satFoldAnd (fun w => is_satisfiable d fuel w) rest bn) =
              some b2
        rw [hsk]
        exact hs2
    · rw [piFoldAnd]
      simp only [hpk, Option.bind_eq_bind, Option.some_bind]
      exact hp2

/-- Unfolding of `is_satisfiable` at positive fuel, with the monadic
sugar written as explicit `Option.bind`s. -/
theorem is_satisfiable_succ (d : dDNNF) (fuel i : Nat) :
    is_satisfiable d (fuel + 1) i = (d.label.get? i).bind (fun lab =>
      (firstChar lab).bind (fun c =>
        if c = 'F' then some false
        else if c = 'A' then
          (d.children.get? i).bind (fun ch =>
            (ch.get? 0).bind (fun j =>
              (is_satisfiable d fuel j).bind (fun b =>
                satFoldAnd (fun w => is_satisfiable d fuel w) ch.tail b)))
        else if c = 'O' then
          (d.children.get? i).bind (fun ch =>
            (ch.get? 0).bind (fun j =>
              (is_satisfiable d fuel j).bind (fun b =>
                satFoldOr (fun w => is_satisfiable d fuel w) ch.tail b)))
        else some true)) := rfl

/-- Unfolding of `Pi` at positive fuel, with explicit `Option.bind`s
(the `remove_subsumed` continuation is inlined into every branch, as
the `do` elaborator does). -/
theorem Pi_succ (d : dDNNF) (fuel i : Nat) :
    Pi d (fuel + 1) i = (d.label.get? i).bind (fun lab =>
      if lab = "F" then
        (some ([] : List (Finset Int))).bind (fun r =>
          some (remove_subsumed r))
      else if lab = "T" then
        (some [(∅ : Finset Int)]).bind (fun r => some (remove_subsumed r))
      else if lab = "A" then
        (d.children.get? i).bind (fun ch =>
          (ch.get? 0).bind (fun j =>
            (Pi d fuel j).bind (fun r0 =>
              (piFoldAnd (fun w => Pi d fuel w) ch.tail r0).bind (fun r =>
                some (remove_subsumed r)))))
      else
        (firstChar lab).bind (fun c =>
          if c = 'O' then
            (d.children.get? i).bind (fun ch =>
              (ch.get? 0).bind (fun j =>
                (Pi d fuel j).bind (fun r0 =>
                  (piFoldOr (fun w => Pi d fuel w) ch.tail r0).bind (fun r =>
                    some (remove_subsumed r)))))
          else (pyInt lab).bind (fun x =>
            (some [({x} : Finset Int)]).bind (fun r =>
              some (remove_subsumed r))))) := rfl

theorem foldOr_rel (d : dDNNF) (fuel : Nat) (l : List Nat)
    (hrec : ∀ k ∈ l, ∃ b lr, is_satisfiable d fuel k = some b ∧
      Pi d fuel k = some lr ∧ b = !lr.isEmpty) :
    ∀ (b : Bool) (r : List (Finset Int)), b = !r.isEmpty →
      ∃ b2 r2, satFoldOr (fun w => is_satisfiable d fuel w) l b = some b2 ∧
        piFoldOr (fun w => Pi d fuel w) l r = some r2 ∧
        b2 = !r2.isEmpty := by
  induction l with
  | nil => exact fun b r hb => ⟨b, r, rfl, rfl, hb⟩
  | cons k rest ih =>
    intro b r hb
    obtain ⟨bk, lk, hsk, hpk, hbk⟩ := hrec k (List.mem_cons_self _ _)
    obtain ⟨b2, r2, hs2, hp2, hb2⟩ :=
      ih (fun w hw => hrec w (List.mem_cons_of_mem _ hw)) (b || bk)
        (r ++ lk)
        (by rw [append_isEmpty, hb, hbk]
            cases r.isEmpty <;> cases lk.isEmpty <;> rfl)
    refine ⟨b2, r2, ?_, ?_, hb2⟩
    · cases b
      · show (is_satisfiable d fuel k).bind
            (fun bn => satFoldOr (fun w => is_satisfiable d fuel w) rest bn) =
              some b2
        rw [hsk]
        exact hs2
      · exact hs2
    · rw [piFoldOr]
      simp only [hpk, Option.bind_eq_bind, Option.some_bind]
      exact hp2

/-- On a well-formed acyclic circuit with fuel above the queried
node's rank, `is_satisfiable` and `Pi` both succeed and the boolean is
exactly the nonemptiness of the reason list. -/
theorem sat_Pi_agree (d : dDNNF) (rk : Nat → Nat) (hWF : evalWF d)
    (hrk : rankWF d rk) :
    ∀ fuel i, i < d.label.length → rk i < fuel →
      ∃ b l, is_satisfiable d fuel i = some b ∧ Pi d fuel i = some l ∧
        b = !l.isEmpty := by
  obtain ⟨hlen, hlab, hne⟩ := hWF
  intro fuel
  induction fuel with
  | zero =>
    intro i hi hf
    omega
  | succ fuel ih =>
    intro i hi hf
    cases hl : d.label.get? i with
    | none =>
      rw [List.get?_eq_getElem?, List.getElem?_eq_none_iff] at hl
      omega
    | some labi =>
      have hok := hlab labi (List.get?_mem hl)
      simp only [labelOk, Bool.or_eq_true, decide_eq_true_eq,
        Option.isSome_iff_exists] at hok
      have hlabD : d.label.getD i "" = labi := by
        rw [List.getD_eq_get?, hl]
        rfl
      rcases hok with ((((hT | hF) | hA) | hO) | ⟨x, hx⟩)
      · subst hT
        refine ⟨true, [∅], ?_, ?_, rfl⟩
        · rw [is_satisfiable_succ, hl]
          rfl
        · rw [Pi_succ, hl]
          show some (remove_subsumed [∅]) = some [∅]
          rw [remove_subsumed_singleton]
      · subst hF
        refine ⟨false, [], ?_, ?_, rfl⟩
        · rw [is_satisfiable_succ, hl]
          rfl
        · rw [Pi_succ, hl]
          rfl
      · subst hA
        cases hch : d.children.get? i with
        | none =>
          rw [List.get?_eq_getElem?, List.getElem?_eq_none_iff] at hch
          omega
        | some chi =>
          have hchD : d.children.getD i [] = chi := by
            rw [List.getD_eq_get?, hch]
            rfl
          have hnei := hne i hi (Or.inl hlabD)
          rw [hchD] at hnei
          obtain ⟨j, rest, rfl⟩ : ∃ j rest, chi = j :: rest := by
            cases chi with
            | nil => exact absurd rfl hnei
            | cons j rest => exact ⟨j, rest, rfl⟩
          have hordi := hrk i hi
          rw [hchD] at hordi
          have hji := hordi j (List.mem_cons_self _ _)
          obtain ⟨bj, lj, hsj, hpj, hbj⟩ := ih j hji.2 (by omega)
          have hrec : ∀ k ∈ rest, ∃ b lr,
              is_satisfiable d fuel k = some b ∧ Pi d fuel k = some lr ∧
                b = !lr.isEmpty := by
            intro k hk
            have hki := hordi k (List.mem_cons_of_mem _ hk)
            exact ih k hki.2 (by omega)
          obtain ⟨b2, r2, hfs, hfp, hb2⟩ := foldAnd_rel d fuel rest hrec bj lj hbj
          refine ⟨b2, remove_subsumed r2, ?_, ?_, ?_⟩
          · rw [is_satisfiable_succ, hl]
            show (d.children.get? i).bind _ = some b2
            rw [hch]
            show (is_satisfiable d fuel j).bind _ = some b2
            rw [hsj]
            show satFoldAnd (fun w => is_satisfiable d fuel w) rest bj =
              some b2
            exact hfs
          · rw [Pi_succ, hl]
            show (d.children.get? i).bind _ = some (remove_subsumed r2)
            rw [hch]
            show (Pi d fuel j).bind _ = some (remove_subsumed r2)
            rw [hpj]
            show (piFoldAnd (fun w => Pi d fuel w) rest lj).bind
              (fun r => some (remove_subsumed r)) = some (remove_subsumed r2)
            rw [hfp]
            rfl
          · rw [hb2, remove_subsumed_isEmpty]
      · have hnF : labi ≠ "F" := by
          intro he
          rw [he] at hO
          exact absurd (Option.some_inj.mp hO) (by decide)
        have hnT : labi ≠ "T" := by
          intro he
          rw [he] at hO
          exact absurd (Option.some_inj.mp hO) (by decide)
        have hnA : labi ≠ "A" := by
          intro he
          rw [he] at hO
          exact absurd (Option.some_inj.mp hO) (by decide)
        cases hch : d.children.get? i with
        | none =>
          rw [List.get?_eq_getElem?, List.getElem?_eq_none_iff] at hch
          omega
        | some chi =>
          have hchD : d.children.getD i [] = chi := by
            rw [List.getD_eq_get?, hch]
            rfl
          have hnei := hne i hi (Or.inr (by rw [hlabD]; exact hO))
          rw [hchD] at hnei
          obtain ⟨j, rest, rfl⟩ : ∃ j rest, chi = j :: rest := by
            cases chi with
            | nil => exact absurd rfl hnei
            | cons j rest => exact ⟨j, rest, rfl⟩
          have hordi := hrk i hi
          rw [hchD] at hordi
          have hji := hordi j (List.mem_cons_self _ _)
          obtain ⟨bj, lj, hsj, hpj, hbj⟩ := ih j hji.2 (by omega)
          have hrec : ∀ k ∈ rest, ∃ b lr,
              is_satisfiable d fuel k = some b ∧ Pi d fuel k = some lr ∧
                b = !lr.isEmpty := by
            intro k hk
            have hki := hordi k (List.mem_cons_of_mem _ hk)
            exact ih k hki.2 (by omega)
          obtain ⟨b2, r2, hfs, hfp, hb2⟩ := foldOr_rel d fuel rest hrec bj lj hbj
          refine ⟨b2, remove_subsumed r2, ?_, ?_, ?_⟩
          · rw [is_satisfiable_succ, hl]
            show (firstChar labi).bind _ = some b2
            rw [hO]
            show (d.children.get? i).bind _ = some b2
            rw [hch]
            show (is_satisfiable d fuel j).bind _ = some b2
            rw [hsj]
            show satFoldOr (fun w => is_satisfiable d fuel w) rest bj =
              some b2
            exact hfs
          · rw [Pi_succ, hl]
            simp only [Option.some_bind, if_neg hnF, if_neg hnT, if_neg hnA]
            rw [hO]
            simp only [Option.some_bind, if_pos rfl]
            rw [hch]
            simp only [Option.some_bind, List.get?_cons_zero, List.tail_cons]
            rw [hpj]
            simp only [Option.some_bind]
            rw [hfp]
            rfl
          · rw [hb2, remove_subsumed_isEmpty]
      · obtain ⟨c, hc, hcd⟩ := pyInt_some_firstChar hx
        obtain ⟨hT2, hF2, hA2, hO2⟩ := intLead_not_TFAO hcd
        have hnF : labi ≠ "F" := by
          intro he
          rw [he] at hc
          exact hF2 (Option.some_inj.mp hc).symm
        have hnT : labi ≠ "T" := by
          intro he
          rw [he] at hc
          exact hT2 (Option.some_inj.mp hc).symm
        have hnA : labi ≠ "A" := by
          intro he
          rw [he] at hc
          exact hA2 (Option.some_inj.mp hc).symm
        refine ⟨true, [{x}], ?_, ?_, rfl⟩
        · rw [is_satisfiable_succ, hl]
          show (firstChar labi).bind _ = some true
          rw [hc]
          simp only [Option.some_bind, if_neg hF2, if_neg hA2, if_neg hO2]
        · rw [Pi_succ, hl]
          simp only [Option.some_bind, if_neg hnF, if_neg hnT, if_neg hnA]
          rw [hc]
          simp only [Option.some_bind, if_neg hO2]
          rw [hx]
          simp only [Option.some_bind]
          rw [remove_subsumed_singleton]

/-- C2: on every well-formed acyclic circuit — acyclicity witnessed
by a rank `rk` decreasing along every edge, so post-`consensus`
circuits with backward child references are covered — and fuel above
the queried node's rank, `is_satisfiable(d, i)` returns true iff
`Pi(d, i)` returns a non-empty list of reasons. -/
theorem C2_sat_iff_Pi_nonempty (d : dDNNF) (rk : Nat → Nat)
    (hWF : evalWF d) (hrk : rankWF d rk) (fuel i : Nat)
    (hi : i < d.label.length) (hf : rk i < fuel) :
    is_satisfiable d fuel i = some true ↔
      ∃ l, Pi d fuel i = some l ∧ l ≠ [] := by
  obtain ⟨b, l, hs, hp, hb⟩ := sat_Pi_agree d rk hWF hrk fuel i hi hf
  constructor
  · intro h
    rw [hs] at h
    have hbt : b = true := Option.some_inj.mp h
    refine ⟨l, hp, ?_⟩
    rw [hbt] at hb
    intro hnil
    rw [hnil] at hb
    exact Bool.noConfusion hb
  · rintro ⟨l2, hp2, hne2⟩
    rw [hp] at hp2
    cases hp2
    rw [hs, hb]
    have : l.isEmpty = false := by
      rw [List.isEmpty_eq_false_iff_exists_mem]
      obtain ⟨a, ha⟩ := List.exists_mem_of_ne_nil _ hne2
      exact ⟨a, ha⟩
    rw [this]
    rfl

/-! ### Claim C8: loader error behaviour -/

/-- Witness for C2 on the circuit `consensus` produces from
`evenIfBase`, whose appended consensus node points backward into the
table (children indices are not monotone). -/
theorem C2_witness :
    is_satisfiable postConsensus 5 0 = some true ↔
      ∃ l, Pi postConsensus 5 0 = some l ∧ l ≠ [] :=
  C2_sat_iff_Pi_nonempty postConsensus postConsensusRank
    ⟨by decide, by decide, by decide⟩ (by unfold rankWF; decide) 5 0
    (by decide) (by decide)

/-! ### Tokenizer round trip (for C9) -/

end XALogic
